import Mathlib

/-!
# Verification of the polyglot decode engine

A shallow embedding of `decode.go` from `loopholelabs/polyglot.go`.

Byte buffers (`[]byte`) are `List UInt8`; a decode function takes the
remaining-bytes cursor and returns the advanced cursor, the decoded value and
an optional error, exactly as the Go functions do.  Go's machine integers are
modelled as `Nat` (unsigned) and `Int` (signed) with explicit `% 2 ^ w`
wrap-around where the Go arithmetic is performed at width `w`.

The variable-length integer decoders (`decodeUint16`, `decodeUint32`,
`decodeUint64`, `decodeInt32`, `decodeInt64`) index the buffer beyond the
initial `len(b) > 1` bounds check; in Go an index past the end is a runtime
panic.  Those functions therefore return `Option (...)`: `none` models the
out-of-bounds access (runtime panic), `some` a normal return.
-/

namespace Polyglot

/-- `VarIntLen16` from decode.go: maximum varint byte count for 16 bits. -/
def VarIntLen16 : Nat := 3

/-- `VarIntLen32` from decode.go: maximum varint byte count for 32 bits. -/
def VarIntLen32 : Nat := 5

/-- `VarIntLen64` from decode.go: maximum varint byte count for 64 bits. -/
def VarIntLen64 : Nat := 10

/-- `continuation` from decode.go (`0x80`), the varint continuation bit.
(Renamed with a `Byte` suffix for this development.) -/
def continuationByte : Nat := 0x80

/-- Modelled from the spec: the kind registry (the repository's kind file is
not under `src/`).  The spec fixes a closed enumeration of one-byte tags with
distinct, stable values; the concrete numbers are not fixed by the spec, only
distinctness, so the tags are numbered in the spec's enumeration order. -/
def NilRawKind : UInt8 := 0

/-- Modelled from the spec: Map kind tag. -/
def MapRawKind : UInt8 := 1

/-- Modelled from the spec: Slice kind tag. -/
def SliceRawKind : UInt8 := 2

/-- Modelled from the spec: Bytes kind tag. -/
def BytesRawKind : UInt8 := 3

/-- Modelled from the spec: Bool kind tag. -/
def BoolRawKind : UInt8 := 6

/-- Modelled from the spec: Uint16 kind tag. -/
def Uint16RawKind : UInt8 := 8

/-- Modelled from the spec: Uint32 kind tag. -/
def Uint32RawKind : UInt8 := 9

/-- Modelled from the spec: StaticUint32 kind tag. -/
def StaticUint32RawKind : UInt8 := 10

/-- Modelled from the spec: Uint64 kind tag. -/
def Uint64RawKind : UInt8 := 11

/-- Modelled from the spec: Int32 kind tag. -/
def Int32RawKind : UInt8 := 12

/-- Modelled from the spec: Int64 kind tag. -/
def Int64RawKind : UInt8 := 13

/-- Modelled from the spec: the explicit true sentinel byte compared against
by `decodeBool` (`trueBool` lives outside `src/`; the spec only requires one
distinguished sentinel value). -/
def trueBool : UInt8 := 1

/-- The sentinel error values of decode.go (`InvalidSlice`, `InvalidMap`, ...). -/
inductive GoErr where
  | invalidSlice
  | invalidMap
  | invalidBytes
  | invalidString
  | invalidError
  | invalidBool
  | invalidUint8
  | invalidUint16
  | invalidUint32
  | invalidUint64
  | invalidInt32
  | invalidInt64
  deriving DecidableEq, Repr

/-- A Go `[]byte` slice header: `data` are the visible elements (`len`),
`spare` the bytes between `len` and `cap` in the backing array, so
`cap = data.length + spare.length`.  A Go `nil` slice is `Option.none` at
use sites. -/
structure ByteSlice where
  data : List UInt8
  spare : List UInt8
  deriving DecidableEq, Repr

/-- `cap` of a modelled Go byte slice. -/
def ByteSlice.cap (r : ByteSlice) : Nat := r.data.length + r.spare.length

/-- `decodeNil` from decode.go. -/
def decodeNil (b : List UInt8) : List UInt8 × Bool :=
  match b with
  | b0 :: rest =>
    if b0 = NilRawKind then (rest, true) else (b, false)
  | [] => (b, false)

/-- `decodeStaticUint32` from decode.go: tag plus exactly four big-endian
bytes (`len(b) > 4` is the five-element pattern). -/
def decodeStaticUint32 (b : List UInt8) : List UInt8 × Nat × Option GoErr :=
  match b with
  | b0 :: b1 :: b2 :: b3 :: b4 :: rest =>
    if b0 = StaticUint32RawKind then
      (rest, b4.toNat ||| (b3.toNat <<< 8) ||| (b2.toNat <<< 16) ||| (b1.toNat <<< 24), none)
    else (b, 0, some .invalidUint32)
  | _ => (b, 0, some .invalidUint32)

/-- `decodeMap` from decode.go.  Note that on an inner `decodeStaticUint32`
failure the Go code has rebound `b` to the inner call's cursor (`b[3:]`),
and returns that rebound cursor. -/
def decodeMap (b : List UInt8) (keyKind valueKind : UInt8) :
    List UInt8 × Nat × Option GoErr :=
  match b with
  | b0 :: b1 :: b2 :: rest =>
    if b0 = MapRawKind ∧ b1 = keyKind ∧ b2 = valueKind then
      match decodeStaticUint32 rest with
      | (b', _, some _) => (b', 0, some .invalidMap)
      | (b', size, none) => (b', size, none)
    else (b, 0, some .invalidMap)
  | _ => (b, 0, some .invalidMap)

/-- `decodeSlice` from decode.go. -/
def decodeSlice (b : List UInt8) (kind : UInt8) :
    List UInt8 × Nat × Option GoErr :=
  match b with
  | b0 :: b1 :: rest =>
    if b0 = SliceRawKind ∧ b1 = kind then
      match decodeStaticUint32 rest with
      | (b', _, some _) => (b', 0, some .invalidSlice)
      | (b', size, none) => (b', size, none)
    else (b, 0, some .invalidSlice)
  | _ => (b, 0, some .invalidSlice)

/-- `decodeBytes` from decode.go.  `ret` is the optional caller-supplied
destination (`none` is Go `nil`).  The Go `append(ret[:0], b[:size]...)` is
modelled by its two semantic cases: when `size ≤ cap ret` it rewrites the
backing array in place (capacity preserved, bytes past `size` untouched);
when the capacity is insufficient Go allocates a fresh backing array whose
grown capacity is unspecified, modelled here with no spare capacity.
`copy(ret[0:], b[:size])` copies `min (len ret) size = size` bytes and keeps
the destination's length.  The Go guard `len(b) > int(size)-1` is computed
over `Int` exactly as Go does over `int`. -/
def decodeBytes (b : List UInt8) (ret : Option ByteSlice) :
    List UInt8 × Option ByteSlice × Option GoErr :=
  match b with
  | b0 :: rest =>
    if b0 = BytesRawKind then
      match decodeStaticUint32 rest with
      | (b', _, some _) => (b', none, some .invalidBytes)
      | (b', size, none) =>
        if (b'.length : Int) > (size : Int) - 1 then
          match ret with
          | none =>
            if 0 < size then
              (b'.drop size, some ⟨b'.take size, []⟩, none)
            else
              (b'.drop size, none, none)
          | some r =>
            if r.data.length < size then
              if size ≤ r.cap then
                (b'.drop size, some ⟨b'.take size, (r.data ++ r.spare).drop size⟩, none)
              else
                (b'.drop size, some ⟨b'.take size, []⟩, none)
            else
              (b'.drop size, some ⟨b'.take size ++ r.data.drop size, r.spare⟩, none)
        else (b', none, some .invalidBytes)
    else (b, none, some .invalidBytes)
  | [] => (b, none, some .invalidBytes)

/-- `decodeBool` from decode.go. -/
def decodeBool (b : List UInt8) : List UInt8 × Bool × Option GoErr :=
  match b with
  | b0 :: b1 :: rest =>
    if b0 = BoolRawKind then
      if b1 = trueBool then (rest, true, none) else (rest, false, none)
    else (b, false, some .invalidBool)
  | _ => (b, false, some .invalidBool)

/-- How the shared varint `for` loop of `decodeUint16` / `decodeUint64` /
`decodeInt64` exits (the three Go loop bodies are textually identical up to
width; the spec's §9 note states the looped and unrolled forms coincide). -/
inductive LoopExit where
  | oob
  | overflow
  | fallthru
  | done (cursor : List UInt8) (val : Nat)
  deriving DecidableEq, Repr

/-- The varint `for` loop from decode.go at width `w` over the cursor tail
`t = b[1:]`: `i` is the source's loop index (so `b[i]` is `t.get? (i-1)` and
`b[i+1:]` is `t.drop i`), `fuel = maxLen + 1 - i` counts the remaining
iterations of `for i := 1; i < maxLen+1; i++`.  An index past the end of the
buffer is `LoopExit.oob` (a Go runtime panic).  The source's overflow branch
tests `i > maxLen`, kept verbatim here. -/
def varintLoopU (w maxLen : Nat) (t : List UInt8) :
    Nat → Nat → Nat → Nat → LoopExit
  | 0, _, _, _ => .fallthru
  | fuel + 1, i, x, s =>
    match t.get? (i - 1) with
    | none => .oob
    | some cb =>
      if cb.toNat < continuationByte then
        if maxLen < i ∧ 1 < cb.toNat then .overflow
        else .done (t.drop i) (x ||| ((cb.toNat <<< s) % 2 ^ w))
      else
        varintLoopU w maxLen t fuel (i + 1)
          (x ||| (((cb.toNat &&& (continuationByte - 1)) <<< s) % 2 ^ w)) (s + 7)

/-- `decodeUint16` from decode.go.  On the (unreachable) overflow branch the
source returns `InvalidUint32`, reproduced verbatim. -/
def decodeUint16 (b : List UInt8) : Option (List UInt8 × Nat × Option GoErr) :=
  match b with
  | b0 :: b1 :: rest =>
    if b0 = Uint16RawKind then
      match varintLoopU 16 VarIntLen16 (b1 :: rest) VarIntLen16 1 0 0 with
      | .oob => none
      | .overflow => some (b, 0, some .invalidUint32)
      | .fallthru => some (b, 0, some .invalidUint16)
      | .done c v => some (c, v, none)
    else some (b, 0, some .invalidUint16)
  | _ => some (b, 0, some .invalidUint16)

/-- `decodeUint32` from decode.go: the manually unrolled chain.  Each
`cb := uint32(b[k])` is an unchecked index, so a missing byte is `none`
(runtime panic); uint32 arithmetic wraps modulo `2 ^ 32`. -/
def decodeUint32 (b : List UInt8) : Option (List UInt8 × Nat × Option GoErr) :=
  match b with
  | b0 :: b1 :: r1 =>
    if b0 = Uint32RawKind then
      let cb := b1.toNat
      if cb < continuationByte then some (r1, cb, none)
      else
        let x := cb &&& (continuationByte - 1)
        match r1 with
        | [] => none
        | b2 :: r2 =>
          let cb := b2.toNat
          if cb < continuationByte then some (r2, x ||| ((cb <<< 7) % 2 ^ 32), none)
          else
            let x := x ||| (((cb &&& (continuationByte - 1)) <<< 7) % 2 ^ 32)
            match r2 with
            | [] => none
            | b3 :: r3 =>
              let cb := b3.toNat
              if cb < continuationByte then some (r3, x ||| ((cb <<< 14) % 2 ^ 32), none)
              else
                let x := x ||| (((cb &&& (continuationByte - 1)) <<< 14) % 2 ^ 32)
                match r3 with
                | [] => none
                | b4 :: r4 =>
                  let cb := b4.toNat
                  if cb < continuationByte then some (r4, x ||| ((cb <<< 21) % 2 ^ 32), none)
                  else
                    let x := x ||| (((cb &&& (continuationByte - 1)) <<< 21) % 2 ^ 32)
                    match r4 with
                    | [] => none
                    | b5 :: r5 =>
                      let cb := b5.toNat
                      if cb < continuationByte then
                        some (r5, x ||| ((cb <<< 28) % 2 ^ 32), none)
                      else some (b, 0, some .invalidUint32)
    else some (b, 0, some .invalidUint32)
  | _ => some (b, 0, some .invalidUint32)

/-- `decodeUint64` from decode.go (looped form, shared loop body). -/
def decodeUint64 (b : List UInt8) : Option (List UInt8 × Nat × Option GoErr) :=
  match b with
  | b0 :: b1 :: rest =>
    if b0 = Uint64RawKind then
      match varintLoopU 64 VarIntLen64 (b1 :: rest) VarIntLen64 1 0 0 with
      | .oob => none
      | .overflow => some (b, 0, some .invalidUint64)
      | .fallthru => some (b, 0, some .invalidUint64)
      | .done c v => some (c, v, none)
    else some (b, 0, some .invalidUint64)
  | _ => some (b, 0, some .invalidUint64)

/-- Wrap-around of Go `int32` arithmetic: the value of a 32-bit two's
complement result. -/
def i32wrap (z : Int) : Int := (z + 2 ^ 31) % 2 ^ 32 - 2 ^ 31

/-- Wrap-around of Go `int64` arithmetic. -/
def i64wrap (z : Int) : Int := (z + 2 ^ 63) % 2 ^ 64 - 2 ^ 63

/-- The sign-separation step appearing in every terminal branch of
`decodeInt32`: `x := int32(u >> 1); if u&1 != 0 { x = -(x + 1) }`, with the
`int32` addition and negation wrapping. -/
def int32Sign (u : Nat) : Int :=
  if u &&& 1 ≠ 0 then i32wrap (-(i32wrap (((u >>> 1 : Nat) : Int) + 1)))
  else ((u >>> 1 : Nat) : Int)

/-- The sign-separation step of `decodeInt64`'s terminal branch. -/
def int64Sign (u : Nat) : Int :=
  if u &&& 1 ≠ 0 then i64wrap (-(i64wrap (((u >>> 1 : Nat) : Int) + 1)))
  else ((u >>> 1 : Nat) : Int)

/-- `decodeInt32` from decode.go: the unrolled unsigned accumulation followed
by the inline sign separation in each terminal branch. -/
def decodeInt32 (b : List UInt8) : Option (List UInt8 × Int × Option GoErr) :=
  match b with
  | b0 :: b1 :: r1 =>
    if b0 = Int32RawKind then
      let cb := b1.toNat
      if cb < continuationByte then some (r1, int32Sign cb, none)
      else
        let x := cb &&& (continuationByte - 1)
        match r1 with
        | [] => none
        | b2 :: r2 =>
          let cb := b2.toNat
          if cb < continuationByte then
            some (r2, int32Sign (x ||| ((cb <<< 7) % 2 ^ 32)), none)
          else
            let x := x ||| (((cb &&& (continuationByte - 1)) <<< 7) % 2 ^ 32)
            match r2 with
            | [] => none
            | b3 :: r3 =>
              let cb := b3.toNat
              if cb < continuationByte then
                some (r3, int32Sign (x ||| ((cb <<< 14) % 2 ^ 32)), none)
              else
                let x := x ||| (((cb &&& (continuationByte - 1)) <<< 14) % 2 ^ 32)
                match r3 with
                | [] => none
                | b4 :: r4 =>
                  let cb := b4.toNat
                  if cb < continuationByte then
                    some (r4, int32Sign (x ||| ((cb <<< 21) % 2 ^ 32)), none)
                  else
                    let x := x ||| (((cb &&& (continuationByte - 1)) <<< 21) % 2 ^ 32)
                    match r4 with
                    | [] => none
                    | b5 :: r5 =>
                      let cb := b5.toNat
                      if cb < continuationByte then
                        some (r5, int32Sign (x ||| ((cb <<< 28) % 2 ^ 32)), none)
                      else some (b, 0, some .invalidInt32)
    else some (b, 0, some .invalidInt32)
  | _ => some (b, 0, some .invalidInt32)

/-- `decodeInt64` from decode.go (looped form; the loop body is identical to
`decodeUint64`'s, with the sign separation applied on loop exit exactly as
in the source's terminal branch). -/
def decodeInt64 (b : List UInt8) : Option (List UInt8 × Int × Option GoErr) :=
  match b with
  | b0 :: b1 :: rest =>
    if b0 = Int64RawKind then
      match varintLoopU 64 VarIntLen64 (b1 :: rest) VarIntLen64 1 0 0 with
      | .oob => none
      | .overflow => some (b, 0, some .invalidInt64)
      | .fallthru => some (b, 0, some .invalidInt64)
      | .done c v => some (c, int64Sign v, none)
    else some (b, 0, some .invalidInt64)
  | _ => some (b, 0, some .invalidInt64)

/-- Follows the spec's words (zigzag decode): value = `rawUnsigned >> 1`; if
`rawUnsigned & 1` is set, result = `-(value + 1)`, else result = `value`. -/
def specZigzag (u : Nat) : Int :=
  if u % 2 = 1 then -(((u / 2 : Nat) : Int) + 1) else ((u / 2 : Nat) : Int)

/-- Follows the spec's words (unsigned 32-bit varint decode): each byte's low
7 bits are accumulated at increasing bit-shift offsets (0, 7, 14, ...) into a
32-bit value; a byte with its high bit clear ends the sequence; at most
`fuel` bytes are read. -/
def specVarintAccum : Nat → Nat → Nat → List UInt8 → Option (Nat × List UInt8)
  | _, _, _, [] => none
  | x, s, fuel, c :: t =>
    if fuel = 0 then none
    else if c.toNat < continuationByte then
      some (x ||| ((c.toNat <<< s) % 2 ^ 32), t)
    else
      specVarintAccum (x ||| (((c.toNat &&& (continuationByte - 1)) <<< s) % 2 ^ 32))
        (s + 7) (fuel - 1) t

/-! ## Helper lemmas -/

theorem static_ok {b r : List UInt8} {v : Nat}
    (h : decodeStaticUint32 b = (r, v, none)) :
    ∃ c0 c1 c2 c3 t, b = StaticUint32RawKind :: c0 :: c1 :: c2 :: c3 :: t ∧ r = t ∧
      v = c3.toNat ||| (c2.toNat <<< 8) ||| (c1.toNat <<< 16) ||| (c0.toNat <<< 24) := by
  rcases b with _ | ⟨b0, _ | ⟨b1, _ | ⟨b2, _ | ⟨b3, _ | ⟨b4, rest⟩⟩⟩⟩⟩
  · simp [decodeStaticUint32] at h
  · simp [decodeStaticUint32] at h
  · simp [decodeStaticUint32] at h
  · simp [decodeStaticUint32] at h
  · simp [decodeStaticUint32] at h
  · simp only [decodeStaticUint32] at h
    split at h
    next hcond =>
      simp only [Prod.mk.injEq] at h
      exact ⟨b1, b2, b3, b4, rest, by rw [hcond], h.1.symm, h.2.1.symm⟩
    next => simp at h

theorem int32Sign_eq_spec {u : Nat} (hu : u < 2 ^ 32) : int32Sign u = specZigzag u := by
  have hdiv : u / 2 < 2 ^ 31 := by omega
  have hs : u >>> 1 = u / 2 := Nat.shiftRight_eq_div_pow u 1 ▸ by norm_num
  unfold int32Sign specZigzag i32wrap
  rw [Nat.and_one_is_mod, hs]
  split_ifs <;> omega

theorem int64Sign_eq_spec {u : Nat} (hu : u < 2 ^ 64) : int64Sign u = specZigzag u := by
  have hdiv : u / 2 < 2 ^ 63 := by omega
  have hs : u >>> 1 = u / 2 := Nat.shiftRight_eq_div_pow u 1 ▸ by norm_num
  unfold int64Sign specZigzag i64wrap
  rw [Nat.and_one_is_mod, hs]
  split_ifs <;> omega

theorem ormod_lt {w : Nat} {a b : Nat} (ha : a < 2 ^ w) : a ||| (b % 2 ^ w) < 2 ^ w :=
  Nat.or_lt_two_pow ha (Nat.mod_lt _ (Nat.two_pow_pos w))

theorem byte_lt_32 (c : UInt8) : c.toNat < 2 ^ 32 :=
  Nat.lt_trans c.toNat_lt_size (by norm_num)

theorem and127_lt_32 (c : UInt8) : c.toNat &&& 127 < 2 ^ 32 :=
  Nat.lt_of_le_of_lt Nat.and_le_right (by norm_num)

theorem andMask_lt (c : UInt8) : c.toNat &&& (continuationByte - 1) < 4294967296 :=
  Nat.lt_of_le_of_lt Nat.and_le_right (by norm_num [continuationByte])

theorem ormod32_lt {a : Nat} (b : Nat) (ha : a < 4294967296) :
    a ||| b % 4294967296 < 4294967296 := by
  have h2 : (2 : Nat) ^ 32 = 4294967296 := by norm_num
  rw [← h2] at ha ⊢
  exact Nat.or_lt_two_pow ha (Nat.mod_lt _ (Nat.two_pow_pos 32))

theorem varintLoopU_done_lt {w maxLen : Nat} {t : List UInt8} :
    ∀ {fuel i x s c v}, varintLoopU w maxLen t fuel i x s = .done c v →
      x < 2 ^ w → v < 2 ^ w := by
  intro fuel
  induction fuel with
  | zero => intro i x s c v h _; simp [varintLoopU] at h
  | succ fuel ih =>
    intro i x s c v h hx
    rw [varintLoopU] at h
    split at h
    · simp at h
    · split at h
      · split at h
        · simp at h
        · simp only [LoopExit.done.injEq] at h
          obtain ⟨-, h2⟩ := h
          rw [← h2]
          exact ormod_lt hx
      · exact ih h (ormod_lt hx)

/-- C1: the claim says every decode returns without out-of-bounds access and
truncating a correct encoding always yields an error.  The code violates it:
the varint loops index past the initial two-byte bounds check, so decoding
the strict two-byte truncation of the valid encoding of 300 (whose full form
decodes fine, first conjunct) reads past the end of the buffer (modelled as
`none`, a Go runtime panic), and so do `decodeUint16`/`decodeUint64` on a
lone continuation byte. -/
theorem C1_truncation_oob :
    decodeUint32 [Uint32RawKind, 0xAC, 0x02] = some ([], 300, none) ∧
    decodeUint32 [Uint32RawKind, 0xAC] = none ∧
    decodeUint16 [Uint16RawKind, 0x80] = none ∧
    decodeUint64 [Uint64RawKind, 0x80] = none := by decide

/-- C2: the claim says a maximum-position final varint byte greater than 1
makes the decode fail with the width's Invalid error.  The code's overflow
test `i > VarIntLenN` can never hold inside `for i := 1; i < VarIntLenN+1`,
so all three widths accept a final byte of `0x7F` at the maximum position
and return a wrapped value with a nil error. -/
theorem C2_overflow_check_dead :
    decodeUint16 [Uint16RawKind, 0x80, 0x80, 0x7F] = some ([], 0xC000, none) ∧
    decodeUint32 [Uint32RawKind, 0x80, 0x80, 0x80, 0x80, 0x7F] =
      some ([], 0xF0000000, none) ∧
    decodeUint64 [Uint64RawKind, 0x80, 0x80, 0x80, 0x80, 0x80, 0x80, 0x80, 0x80, 0x80, 0x7F] =
      some ([], 0x8000000000000000, none) := by decide

/-- C4 counterexample: a successful `decodeBytes` of a length-1 payload into
a caller-supplied destination of length 2 copies the payload into the first
byte but returns the destination with its original length 2, so the returned
slice's length is not the payload length. -/
theorem C4_length_counterexample :
    decodeBytes [BytesRawKind, StaticUint32RawKind, 0, 0, 0, 1, 0x42]
        (some ⟨[9, 9], []⟩)
      = ([], some ⟨[0x42, 9], []⟩, none) ∧
    (ByteSlice.mk [0x42, 9] []).data.length ≠ 1 := by decide

/-- C5: `decodeNil` never fails; on a leading Nil tag it consumes exactly
that byte and reports true, otherwise (empty buffer or any other first byte)
it returns the cursor unchanged and reports false. -/
theorem C5_nil_probe (b : List UInt8) :
    (∀ t, b = NilRawKind :: t → decodeNil b = (t, true)) ∧
    (b.head? ≠ some NilRawKind → decodeNil b = (b, false)) := by
  constructor
  · rintro t rfl
    simp [decodeNil]
  · intro hb
    rcases b with _ | ⟨b0, t⟩
    · simp [decodeNil]
    · have : b0 ≠ NilRawKind := by simpa using hb
      simp [decodeNil, this]

/-- C5 witness. -/
theorem C5_nil_probe_witness :
    decodeNil [NilRawKind] = ([], true) ∧
    decodeNil [BoolRawKind] = ([BoolRawKind], false) :=
  ⟨(C5_nil_probe _).1 [] rfl, (C5_nil_probe _).2 (by decide)⟩

/-- C6: with at least two bytes and a Bool tag, `decodeBool` consumes exactly
two bytes, reporting true iff the payload byte is the true sentinel (any
other payload byte reports false without error); it fails with InvalidBool
exactly when fewer than two bytes remain or the tag mismatches. -/
theorem C6_bool_strict (b : List UInt8) :
    (∀ b1 t, b = BoolRawKind :: b1 :: t →
      decodeBool b = (t, decide (b1 = trueBool), none)) ∧
    (b.length < 2 ∨ b.head? ≠ some BoolRawKind →
      decodeBool b = (b, false, some GoErr.invalidBool)) := by
  constructor
  · rintro b1 t rfl
    by_cases h : b1 = trueBool <;> simp [decodeBool, h]
  · intro hb
    rcases b with _ | ⟨b0, _ | ⟨b1, t⟩⟩
    · simp [decodeBool]
    · simp [decodeBool]
    · rcases hb with hb | hb
      · simp only [List.length_cons] at hb
        omega
      · have : b0 ≠ BoolRawKind := by simpa using hb
        simp [decodeBool, this]

/-- C6 witness. -/
theorem C6_bool_strict_witness :
    decodeBool [BoolRawKind, trueBool] = ([], true, none) ∧
    decodeBool [BoolRawKind, 0] = ([], false, none) ∧
    decodeBool [NilRawKind, trueBool]
      = ([NilRawKind, trueBool], false, some GoErr.invalidBool) :=
  ⟨by simpa using (C6_bool_strict _).1 trueBool [] rfl,
   by simpa using (C6_bool_strict _).1 0 [] rfl,
   (C6_bool_strict _).2 (Or.inr (by decide))⟩

/-- C10: every error path of `decodeBytes` returns `none` (Go `nil`) as the
byte-slice value, even when the caller supplied a destination buffer. -/
theorem C10_error_value_nil :
    ∀ (b : List UInt8) (d : Option ByteSlice) r v e,
      decodeBytes b d = (r, v, some e) → v = none := by
  intro b d r v e h
  rcases b with _ | ⟨b0, rest⟩ <;> simp only [decodeBytes] at h
  · simp_all
  · repeat' split at h
    all_goals simp_all

/-- C10 witness. -/
theorem C10_error_value_nil_witness :
    decodeBytes [0xFF] (some ⟨[7], []⟩) = ([0xFF], none, some GoErr.invalidBytes) ∧
    (none : Option ByteSlice) = none :=
  ⟨by decide, C10_error_value_nil [0xFF] (some ⟨[7], []⟩) [0xFF] none .invalidBytes (by decide)⟩

/-- The amended destination-reuse contract of a successful `decodeBytes` run
(C4): the header's StaticUint32 gives the payload length `L`; the cursor
advances past exactly the payload; the result's first `L` bytes are the
payload; and the five destination cases are: no destination with `L = 0`
(nil result), no destination with `0 < L` (fresh length-`L` buffer), short
destination with sufficient capacity (overwritten in place, length exactly
`L`, capacity preserved), insufficient capacity (fresh length-`L` buffer),
and a destination of length at least `L` (payload copied into its first `L`
bytes, original length kept). -/
def BytesSuccessSpec (b : List UInt8) (dest : Option ByteSlice)
    (rest : List UInt8) (val : Option ByteSlice) : Prop :=
  ∃ b' L, decodeStaticUint32 (b.drop 1) = (b', L, none) ∧ L ≤ b'.length ∧
    rest = b'.drop L ∧
    (∀ v, val = some v → v.data.take L = b'.take L ∧ L ≤ v.data.length) ∧
    ((dest = none ∧ L = 0 ∧ val = none) ∨
     (dest = none ∧ 0 < L ∧ val = some ⟨b'.take L, []⟩) ∨
     (∃ r0, dest = some r0 ∧ r0.data.length < L ∧ L ≤ r0.cap ∧
        val = some ⟨b'.take L, (r0.data ++ r0.spare).drop L⟩) ∨
     (∃ r0, dest = some r0 ∧ r0.cap < L ∧ val = some ⟨b'.take L, []⟩) ∨
     (∃ r0, dest = some r0 ∧ L ≤ r0.data.length ∧
        val = some ⟨b'.take L ++ r0.data.drop L, r0.spare⟩))

/-- C4 amended: every successful `decodeBytes` satisfies the destination
reuse contract `BytesSuccessSpec` (in-place overwrite with length adjusted
to the payload length when the destination is shorter than the payload but
has capacity; fresh length-`L` allocation without destination or capacity;
and, the corrected part, a destination at least as long as the payload keeps
its original length). -/
theorem C4_amended_reuse :
    ∀ (b : List UInt8) (dest : Option ByteSlice) rest val,
      decodeBytes b dest = (rest, val, none) → BytesSuccessSpec b dest rest val := by
  intro b dest rest val h
  rcases b with _ | ⟨b0, rest0⟩
  · simp [decodeBytes] at h
  · rcases dest with _ | r0 <;> simp only [decodeBytes] at h
    · split at h
      · split at h
        next => simp at h
        next b' L0 heq =>
          split at h
          next hlen =>
            have hL : L0 ≤ b'.length := by omega
            have hmin : (b'.take L0).length = L0 := by
              simp only [List.length_take]
              omega
            split at h
            next hpos =>
              simp only [Prod.mk.injEq] at h
              obtain ⟨hr, hv, -⟩ := h
              refine ⟨b', L0, heq, hL, hr.symm, ?_, ?_⟩
              · intro v hv2
                rw [← hv] at hv2
                simp only [Option.some.injEq] at hv2
                subst hv2
                exact ⟨by simp [List.take_take], by simp [hmin]⟩
              · exact Or.inr (Or.inl ⟨rfl, hpos, hv.symm⟩)
            next hpos =>
              simp only [Prod.mk.injEq] at h
              obtain ⟨hr, hv, -⟩ := h
              refine ⟨b', L0, heq, hL, hr.symm, ?_, ?_⟩
              · intro v hv2
                rw [← hv] at hv2
                simp at hv2
              · exact Or.inl ⟨rfl, by omega, hv.symm⟩
          next => simp at h
      · simp at h
    · split at h
      · split at h
        next => simp at h
        next b' L0 heq =>
          split at h
          next hlen =>
            have hL : L0 ≤ b'.length := by omega
            have hmin : (b'.take L0).length = L0 := by
              simp only [List.length_take]
              omega
            split at h
            next hshort =>
              split at h
              next hcap =>
                simp only [Prod.mk.injEq] at h
                obtain ⟨hr, hv, -⟩ := h
                refine ⟨b', L0, heq, hL, hr.symm, ?_, ?_⟩
                · intro v hv2
                  rw [← hv] at hv2
                  simp only [Option.some.injEq] at hv2
                  subst hv2
                  exact ⟨by simp [List.take_take], by simp [hmin]⟩
                · exact Or.inr (Or.inr (Or.inl ⟨r0, rfl, hshort, hcap, hv.symm⟩))
              next hcap =>
                simp only [Prod.mk.injEq] at h
                obtain ⟨hr, hv, -⟩ := h
                refine ⟨b', L0, heq, hL, hr.symm, ?_, ?_⟩
                · intro v hv2
                  rw [← hv] at hv2
                  simp only [Option.some.injEq] at hv2
                  subst hv2
                  exact ⟨by simp [List.take_take], by simp [hmin]⟩
                · exact Or.inr (Or.inr (Or.inr (Or.inl ⟨r0, rfl, by omega, hv.symm⟩)))
            next hshort =>
              simp only [Prod.mk.injEq] at h
              obtain ⟨hr, hv, -⟩ := h
              refine ⟨b', L0, heq, hL, hr.symm, ?_, ?_⟩
              · intro v hv2
                rw [← hv] at hv2
                simp only [Option.some.injEq] at hv2
                subst hv2
                constructor
                · exact List.take_left' hmin
                · simp only [List.length_append, List.length_drop, hmin]
                  omega
              · exact Or.inr (Or.inr (Or.inr (Or.inr ⟨r0, rfl, by omega, hv.symm⟩)))
          next => simp at h
      · simp at h

/-- C4 witness. -/
theorem C4_amended_reuse_witness :
    BytesSuccessSpec [BytesRawKind, StaticUint32RawKind, 0, 0, 0, 1, 0x55] none []
      (some ⟨[0x55], []⟩) :=
  C4_amended_reuse _ none [] (some ⟨[0x55], []⟩) (by decide)

/-- C7: the signed decoders compute the unsigned varint value `u` and return
`u >> 1` when the low bit of `u` is clear and `-((u >> 1) + 1)` when it is
set (the spec's zigzag decode, `specZigzag`); in particular the Int32 tag
followed by the single varint byte `0x01` decodes to `-1`. -/
theorem C7_zigzag_decode :
    (∀ (p rest : List UInt8) (u : Nat),
        decodeUint32 (Uint32RawKind :: p) = some (rest, u, none) →
        decodeInt32 (Int32RawKind :: p) = some (rest, specZigzag u, none)) ∧
    (∀ (p rest : List UInt8) (u : Nat),
        decodeUint64 (Uint64RawKind :: p) = some (rest, u, none) →
        decodeInt64 (Int64RawKind :: p) = some (rest, specZigzag u, none)) ∧
    decodeInt32 [Int32RawKind, 0x01] = some ([], -1, none) := by
  refine ⟨?_, ?_, by decide⟩
  · intro p rest u h
    rcases p with _ | ⟨c1, p⟩
    · simp [decodeUint32] at h
    by_cases h1 : c1.toNat < continuationByte
    · simp [decodeUint32, h1] at h
      obtain ⟨hr, hu⟩ := h
      subst hr
      subst hu
      simp [decodeInt32, h1, int32Sign_eq_spec (byte_lt_32 c1)]
    rcases p with _ | ⟨c2, p⟩
    · simp [decodeUint32, h1] at h
    by_cases h2 : c2.toNat < continuationByte
    · simp [decodeUint32, h1, h2] at h
      obtain ⟨hr, hu⟩ := h
      subst hr
      subst hu
      simp [decodeInt32, h1, h2]
      exact int32Sign_eq_spec (ormod32_lt _ (andMask_lt c1))
    rcases p with _ | ⟨c3, p⟩
    · simp [decodeUint32, h1, h2] at h
    by_cases h3 : c3.toNat < continuationByte
    · simp [decodeUint32, h1, h2, h3] at h
      obtain ⟨hr, hu⟩ := h
      subst hr
      subst hu
      simp [decodeInt32, h1, h2, h3]
      exact int32Sign_eq_spec (ormod32_lt _ (ormod32_lt _ (andMask_lt c1)))
    rcases p with _ | ⟨c4, p⟩
    · simp [decodeUint32, h1, h2, h3] at h
    by_cases h4 : c4.toNat < continuationByte
    · simp [decodeUint32, h1, h2, h3, h4] at h
      obtain ⟨hr, hu⟩ := h
      subst hr
      subst hu
      simp [decodeInt32, h1, h2, h3, h4]
      exact int32Sign_eq_spec (ormod32_lt _ (ormod32_lt _ (ormod32_lt _ (andMask_lt c1))))
    rcases p with _ | ⟨c5, p⟩
    · simp [decodeUint32, h1, h2, h3, h4] at h
    by_cases h5 : c5.toNat < continuationByte
    · simp [decodeUint32, h1, h2, h3, h4, h5] at h
      obtain ⟨hr, hu⟩ := h
      subst hr
      subst hu
      simp [decodeInt32, h1, h2, h3, h4, h5]
      exact int32Sign_eq_spec
        (ormod32_lt _ (ormod32_lt _ (ormod32_lt _ (ormod32_lt _ (andMask_lt c1)))))
    · simp [decodeUint32, h1, h2, h3, h4, h5] at h
  · intro p rest u h
    rcases p with _ | ⟨c1, p⟩
    · simp [decodeUint64] at h
    rcases hL : varintLoopU 64 VarIntLen64 (c1 :: p) VarIntLen64 1 0 0 with _ | _ | _ | ⟨c, v⟩
    · simp [decodeUint64, hL] at h
    · simp [decodeUint64, hL] at h
    · simp [decodeUint64, hL] at h
    · simp [decodeUint64, hL] at h
      obtain ⟨hr, hu⟩ := h
      subst hr
      subst hu
      simp [decodeInt64, hL]
      exact int64Sign_eq_spec (varintLoopU_done_lt hL (Nat.two_pow_pos 64))

/-- C7 witness. -/
theorem C7_zigzag_decode_witness :
    decodeInt32 [Int32RawKind, 0x02] = some ([], specZigzag 2, none) ∧
    decodeInt64 [Int64RawKind, 0x03] = some ([], specZigzag 3, none) :=
  ⟨C7_zigzag_decode.1 [0x02] [] 2 (by decide),
   C7_zigzag_decode.2.1 [0x03] [] 3 (by decide)⟩

/-- C8: `decodeSlice` succeeds exactly on a Slice tag, one byte equal to the
expected element kind, and a valid StaticUint32, returning that count with
the cursor advanced past exactly those header bytes (no element bytes), and
fails with InvalidSlice otherwise; `decodeMap` is the analogue with the Map
tag, expected key-kind and value-kind bytes, failing with InvalidMap. -/
theorem C8_header_framing :
    (∀ (k c0 c1 c2 c3 : UInt8) (t : List UInt8),
        decodeSlice (SliceRawKind :: k :: StaticUint32RawKind :: c0 :: c1 :: c2 :: c3 :: t) k
          = (t, c3.toNat ||| (c2.toNat <<< 8) ||| (c1.toNat <<< 16) ||| (c0.toNat <<< 24),
              none)) ∧
    (∀ (b : List UInt8) (k : UInt8) rest sz, decodeSlice b k = (rest, sz, none) →
        ∃ c0 c1 c2 c3 t,
          b = SliceRawKind :: k :: StaticUint32RawKind :: c0 :: c1 :: c2 :: c3 :: t ∧
          rest = t ∧
          sz = c3.toNat ||| (c2.toNat <<< 8) ||| (c1.toNat <<< 16) ||| (c0.toNat <<< 24)) ∧
    (∀ (b : List UInt8) (k : UInt8) rest sz e, decodeSlice b k = (rest, sz, some e) →
        e = GoErr.invalidSlice ∧ sz = 0) ∧
    (∀ (kk vk c0 c1 c2 c3 : UInt8) (t : List UInt8),
        decodeMap (MapRawKind :: kk :: vk :: StaticUint32RawKind :: c0 :: c1 :: c2 :: c3 :: t)
            kk vk
          = (t, c3.toNat ||| (c2.toNat <<< 8) ||| (c1.toNat <<< 16) ||| (c0.toNat <<< 24),
              none)) ∧
    (∀ (b : List UInt8) (kk vk : UInt8) rest sz, decodeMap b kk vk = (rest, sz, none) →
        ∃ c0 c1 c2 c3 t,
          b = MapRawKind :: kk :: vk :: StaticUint32RawKind :: c0 :: c1 :: c2 :: c3 :: t ∧
          rest = t ∧
          sz = c3.toNat ||| (c2.toNat <<< 8) ||| (c1.toNat <<< 16) ||| (c0.toNat <<< 24)) ∧
    (∀ (b : List UInt8) (kk vk : UInt8) rest sz e, decodeMap b kk vk = (rest, sz, some e) →
        e = GoErr.invalidMap ∧ sz = 0) := by
  refine ⟨?_, ?_, ?_, ?_, ?_, ?_⟩
  · intro k c0 c1 c2 c3 t
    simp [decodeSlice, decodeStaticUint32]
  · intro b k rest sz h
    rcases b with _ | ⟨b0, _ | ⟨b1, rest1⟩⟩
    · simp [decodeSlice] at h
    · simp [decodeSlice] at h
    · simp only [decodeSlice] at h
      split at h
      next hcond =>
        split at h
        next b' v' e' heq => simp at h
        next b' sz' heq =>
          simp only [Prod.mk.injEq] at h
          obtain ⟨hr, hsz, -⟩ := h
          obtain ⟨c0, c1, c2, c3, t, hrest1, hb', hv⟩ := static_ok heq
          exact ⟨c0, c1, c2, c3, t,
            by rw [hcond.1, hcond.2, hrest1],
            by rw [← hr, hb'],
            by rw [← hsz, hv]⟩
      next => simp at h
  · intro b k rest sz e h
    rcases b with _ | ⟨b0, _ | ⟨b1, rest1⟩⟩ <;> simp only [decodeSlice] at h
    · simp only [Prod.mk.injEq, Option.some.injEq] at h
      exact ⟨h.2.2.symm, h.2.1.symm⟩
    · simp only [Prod.mk.injEq, Option.some.injEq] at h
      exact ⟨h.2.2.symm, h.2.1.symm⟩
    · split at h
      next hcond =>
        split at h
        next b' v' e' heq =>
          simp only [Prod.mk.injEq, Option.some.injEq] at h
          exact ⟨h.2.2.symm, h.2.1.symm⟩
        next b' sz' heq => simp at h
      next =>
        simp only [Prod.mk.injEq, Option.some.injEq] at h
        exact ⟨h.2.2.symm, h.2.1.symm⟩
  · intro kk vk c0 c1 c2 c3 t
    simp [decodeMap, decodeStaticUint32]
  · intro b kk vk rest sz h
    rcases b with _ | ⟨b0, _ | ⟨b1, _ | ⟨b2, rest1⟩⟩⟩
    · simp [decodeMap] at h
    · simp [decodeMap] at h
    · simp [decodeMap] at h
    · simp only [decodeMap] at h
      split at h
      next hcond =>
        split at h
        next b' v' e' heq => simp at h
        next b' sz' heq =>
          simp only [Prod.mk.injEq] at h
          obtain ⟨hr, hsz, -⟩ := h
          obtain ⟨c0, c1, c2, c3, t, hrest1, hb', hv⟩ := static_ok heq
          exact ⟨c0, c1, c2, c3, t,
            by rw [hcond.1, hcond.2.1, hcond.2.2, hrest1],
            by rw [← hr, hb'],
            by rw [← hsz, hv]⟩
      next => simp at h
  · intro b kk vk rest sz e h
    rcases b with _ | ⟨b0, _ | ⟨b1, _ | ⟨b2, rest1⟩⟩⟩ <;> simp only [decodeMap] at h
    · simp only [Prod.mk.injEq, Option.some.injEq] at h
      exact ⟨h.2.2.symm, h.2.1.symm⟩
    · simp only [Prod.mk.injEq, Option.some.injEq] at h
      exact ⟨h.2.2.symm, h.2.1.symm⟩
    · simp only [Prod.mk.injEq, Option.some.injEq] at h
      exact ⟨h.2.2.symm, h.2.1.symm⟩
    · split at h
      next hcond =>
        split at h
        next b' v' e' heq =>
          simp only [Prod.mk.injEq, Option.some.injEq] at h
          exact ⟨h.2.2.symm, h.2.1.symm⟩
        next b' sz' heq => simp at h
      next =>
        simp only [Prod.mk.injEq, Option.some.injEq] at h
        exact ⟨h.2.2.symm, h.2.1.symm⟩

/-- C8 witness. -/
theorem C8_header_framing_witness :
    ∃ c0 c1 c2 c3 t,
      ([SliceRawKind, BoolRawKind, StaticUint32RawKind, 0, 0, 1, 4, 9, 9] : List UInt8)
        = SliceRawKind :: BoolRawKind :: StaticUint32RawKind :: c0 :: c1 :: c2 :: c3 :: t ∧
      ([9, 9] : List UInt8) = t ∧
      260 = c3.toNat ||| (c2.toNat <<< 8) ||| (c1.toNat <<< 16) ||| (c0.toNat <<< 24) :=
  C8_header_framing.2.1 _ BoolRawKind [9, 9] 260 (by decide)

/-- A byte value is below `2 ^ 32` (in literal form, for mod cancellation). -/
theorem byte_lt_4G (c : UInt8) : c.toNat < 4294967296 :=
  Nat.lt_trans c.toNat_lt_size (by norm_num)

/-- C9: the unsigned varint decoder accumulates each byte's low 7 bits at
bit offsets 0, 7, 14, ... into a 32-bit value and terminates at the first
byte with its high bit clear (`specVarintAccum`, the spec's accumulation
loop, with the width's 5-byte budget); in particular the Uint32 tag followed
by `[0xAC, 0x02]` decodes to 300 with an empty remaining cursor. -/
theorem C9_varint_accumulation :
    (∀ (b rest : List UInt8) (v : Nat),
        decodeUint32 b = some (rest, v, none) →
        ∃ p, b = Uint32RawKind :: p ∧
          specVarintAccum 0 0 VarIntLen32 p = some (v, rest)) ∧
    decodeUint32 [Uint32RawKind, 0xAC, 0x02] = some ([], 300, none) := by
  refine ⟨?_, by decide⟩
  intro b rest v h
  rcases b with _ | ⟨b0, _ | ⟨c1, p⟩⟩
  · simp [decodeUint32] at h
  · simp [decodeUint32] at h
  by_cases htag : b0 = Uint32RawKind
  swap
  · simp [decodeUint32, htag] at h
  subst htag
  refine ⟨c1 :: p, rfl, ?_⟩
  by_cases h1 : c1.toNat < continuationByte
  · simp [decodeUint32, h1] at h
    obtain ⟨hr, hv⟩ := h
    subst hr
    subst hv
    simp [specVarintAccum, VarIntLen32, h1, Nat.mod_eq_of_lt (byte_lt_4G c1)]
  rcases p with _ | ⟨c2, p⟩
  · simp [decodeUint32, h1] at h
  by_cases h2 : c2.toNat < continuationByte
  · simp [decodeUint32, h1, h2] at h
    obtain ⟨hr, hv⟩ := h
    subst hr
    subst hv
    simp [specVarintAccum, VarIntLen32, h1, h2, Nat.mod_eq_of_lt (andMask_lt c1)]
  rcases p with _ | ⟨c3, p⟩
  · simp [decodeUint32, h1, h2] at h
  by_cases h3 : c3.toNat < continuationByte
  · simp [decodeUint32, h1, h2, h3] at h
    obtain ⟨hr, hv⟩ := h
    subst hr
    subst hv
    simp [specVarintAccum, VarIntLen32, h1, h2, h3, Nat.mod_eq_of_lt (andMask_lt c1)]
  rcases p with _ | ⟨c4, p⟩
  · simp [decodeUint32, h1, h2, h3] at h
  by_cases h4 : c4.toNat < continuationByte
  · simp [decodeUint32, h1, h2, h3, h4] at h
    obtain ⟨hr, hv⟩ := h
    subst hr
    subst hv
    simp [specVarintAccum, VarIntLen32, h1, h2, h3, h4,
      Nat.mod_eq_of_lt (andMask_lt c1)]
  rcases p with _ | ⟨c5, p⟩
  · simp [decodeUint32, h1, h2, h3, h4] at h
  by_cases h5 : c5.toNat < continuationByte
  · simp [decodeUint32, h1, h2, h3, h4, h5] at h
    obtain ⟨hr, hv⟩ := h
    subst hr
    subst hv
    simp [specVarintAccum, VarIntLen32, h1, h2, h3, h4, h5,
      Nat.mod_eq_of_lt (andMask_lt c1)]
  · simp [decodeUint32, h1, h2, h3, h4, h5] at h

/-- C9 witness. -/
theorem C9_varint_accumulation_witness :
    ∃ p, ([Uint32RawKind, 0xAC, 0x02] : List UInt8) = Uint32RawKind :: p ∧
      specVarintAccum 0 0 VarIntLen32 p = some (300, []) :=
  C9_varint_accumulation.1 _ [] 300 (by decide)

end Polyglot
